import Mathlib

/-!
Verification of the keybinds binding engine: binding-string parsing,
canonical lookup keys, lookup-table dispatch (keyboard and wheel with
cooldown), fuzzy command matching/ranking, and conflict detection.
All definitions are shallow embeddings of the JavaScript source.
-/

set_option maxRecDepth 4000

namespace Keybinds

/-! ## String helpers (models of the JS string operations used by the parser) -/

/-- Model of `String.prototype.toLowerCase` restricted to the ASCII
binding strings this library manipulates: lowercase each character. -/
def lowerStr (s : String) : String := String.mk (s.data.map Char.toLower)

/-- Model of `str.split('+')`: split a character list at every `'+'`.
`"".split('+')` is `[""]` and `"+"` splits into two empty chunks. -/
def splitPlus : List Char → List (List Char)
  | [] => [[]]
  | c :: rest =>
    if c = '+' then [] :: splitPlus rest
    else
      match splitPlus rest with
      | [] => [[c]]
      | t :: ts => (c :: t) :: ts

def isWS (c : Char) : Bool := c = ' ' || c = '\t' || c = '\n' || c = '\r'

/-- Model of `String.prototype.trim` (leading/trailing whitespace removed). -/
def trimChars (l : List Char) : List Char :=
  ((l.dropWhile isWS).reverse.dropWhile isWS).reverse

/-- `keyStr.toLowerCase().split('+').map(p => p.trim()).filter(Boolean)` -/
def tokenize (s : String) : List String :=
  ((splitPlus (lowerStr s).data).map (fun l => String.mk (trimChars l))).filter
    (fun t => t ≠ "")

/-! ## Modifiers and the binding parser -/

structure Modifiers where
  ctrl : Bool
  alt : Bool
  shift : Bool
  meta : Bool
deriving DecidableEq, Repr

def noMods : Modifiers := ⟨false, false, false, false⟩

/-- One iteration of the `for (const part of parts)` loop in `parseMods`:
set a modifier flag, or push the token onto `remaining`. -/
def parseModsStep (isMac : Bool) (st : Modifiers × List String) (part : String) :
    Modifiers × List String :=
  let mods := st.1
  let remaining := st.2
  if part = "ctrl" ∨ part = "control" then ({ mods with ctrl := true }, remaining)
  else if part = "alt" ∨ part = "option" then ({ mods with alt := true }, remaining)
  else if part = "shift" then ({ mods with shift := true }, remaining)
  else if part = "meta" ∨ part = "cmd" ∨ part = "command" then
    ({ mods with meta := true }, remaining)
  else if part = "$mod" then
    (if isMac then { mods with meta := true } else { mods with ctrl := true }, remaining)
  else (mods, remaining ++ [part])

/-- `parseMods`: extract modifier flags from the token list, collecting
non-modifier tokens (in order) as `remaining`.  `isMac` resolves `$mod`. -/
def parseMods (isMac : Bool) (parts : List String) : Modifiers × List String :=
  parts.foldl (parseModsStep isMac) (noMods, [])

/-- The `VALID_KEYS` set from the source (order as written there). -/
def VALID_KEYS : List String :=
  ["a", "b", "c", "d", "e", "f", "g", "h", "i", "j", "k", "l", "m",
   "n", "o", "p", "q", "r", "s", "t", "u", "v", "w", "x", "y", "z",
   "0", "1", "2", "3", "4", "5", "6", "7", "8", "9",
   "f1", "f2", "f3", "f4", "f5", "f6", "f7", "f8", "f9", "f10", "f11", "f12",
   "escape", "enter", "tab", "space", "backspace", "delete", "insert",
   "home", "end", "pageup", "pagedown",
   "arrowup", "arrowdown", "arrowleft", "arrowright", "up", "down", "left", "right",
   "[", "]", "\\", ";", "\'", ",", ".", "/", "`", "-", "=",
   "bracketleft", "bracketright", "backslash", "semicolon", "quote",
   "comma", "period", "slash", "backquote", "minus", "equal"]

def VALID_MOUSE : List String :=
  ["click", "leftclick", "left",
   "rightclick", "right",
   "middleclick", "middle",
   "scrollup", "scrolldown", "scrollleft", "scrollright"]

structure ParsedKey where
  mods : Modifiers
  key : String
deriving DecidableEq, Repr

structure ParsedMouse where
  mods : Modifiers
  button : Nat
deriving DecidableEq, Repr

/-- `parseKey`: parse a key binding string; errors model thrown exceptions. -/
def parseKey (isMac : Bool) (keyStr : String) : Except String ParsedKey :=
  if keyStr = "" then .error "Invalid key binding"
  else
    let parts := tokenize keyStr
    if parts = [] then .error "Empty key binding"
    else
      let mr := parseMods isMac parts
      match mr.2 with
      | [] => .error "Key binding has no key (only modifiers)"
      | key :: rest =>
        if rest ≠ [] then .error "Key binding has multiple keys"
        else if VALID_KEYS.contains key then .ok ⟨mr.1, key⟩
        else .error "Unknown key"

/-- The `let button = 0; if ...` chain of `parseMouse`: map a recognized
button/scroll token to its button index. -/
def buttonIndex (btn : String) : Nat :=
  if btn = "rightclick" ∨ btn = "right" then 2
  else if btn = "middleclick" ∨ btn = "middle" then 1
  else if btn = "scrollup" then 3
  else if btn = "scrolldown" then 4
  else if btn = "scrollleft" then 5
  else if btn = "scrollright" then 6
  else 0

/-- `parseMouse`: parse a mouse binding string into modifiers + button index. -/
def parseMouse (isMac : Bool) (binding : String) : Except String ParsedMouse :=
  if binding = "" then .error "Invalid mouse binding"
  else
    let parts := tokenize binding
    if parts = [] then .error "Empty mouse binding"
    else
      let mr := parseMods isMac parts
      match mr.2 with
      | [] => .error "Mouse binding has no button (only modifiers)"
      | btn :: rest =>
        if rest ≠ [] then .error "Mouse binding has multiple buttons"
        else if VALID_MOUSE.contains btn then .ok ⟨mr.1, buttonIndex btn⟩
        else .error "Unknown mouse button"

def BUTTON_NAMES : List String :=
  ["click", "middle", "right", "scrollup", "scrolldown", "scrollleft", "scrollright"]

/-! ## Canonical lookup keys -/

/-- `modsToPrefix` in the source: serialize present modifiers in the fixed
canonical order ctrl, alt, shift, meta, each as `name+`. -/
def modsCanonical (mods : Modifiers) : String :=
  (if mods.ctrl then "ctrl+" else "")
    ++ (if mods.alt then "alt+" else "")
    ++ (if mods.shift then "shift+" else "")
    ++ (if mods.meta then "meta+" else "")

/-- `keyToLookup`: canonical lookup key of a parsed key binding. -/
def keyToLookup (parsed : ParsedKey) : String :=
  modsCanonical parsed.mods ++ parsed.key

/-- `mouseToLookup`: canonical lookup key of a parsed mouse binding
(`BUTTON_NAMES[parsed.button] || 'click'`). -/
def mouseToLookup (parsed : ParsedMouse) : String :=
  modsCanonical parsed.mods ++ (BUTTON_NAMES.getD parsed.button "click")

/-! ## Events

DOM events are modelled by the fields the engine reads.  The DOM-scoped
predicates on the event target (`matches('command-palette[open]')`,
`matches('keybind-settings[open]')`, tag INPUT/TEXTAREA/contentEditable)
are abstracted as boolean fields of the event. -/

structure KeyEvt where
  key : String
  code : String
  ctrlKey : Bool := false
  altKey : Bool := false
  shiftKey : Bool := false
  metaKey : Bool := false
  targetPaletteOpen : Bool := false
  targetSettingsOpen : Bool := false
  targetIsTextInput : Bool := false

structure WheelEvt where
  deltaX : Int := 0
  deltaY : Int := 0
  ctrlKey : Bool := false
  altKey : Bool := false
  shiftKey : Bool := false
  metaKey : Bool := false
  targetPaletteOpen : Bool := false
  targetSettingsOpen : Bool := false

/-- `eventToKeyLookups`: candidate lookup strings from a keyboard event,
derived from `event.key`, `event.code`, and the code with a leading
`key` stripped, deduplicated against `key`. -/
def eventToKeyLookups (e : KeyEvt) : List String :=
  let pre := modsCanonical ⟨e.ctrlKey, e.altKey, e.shiftKey, e.metaKey⟩
  let key := lowerStr e.key
  let code := lowerStr e.code
  let codeKey : Option String :=
    if "key".data.isPrefixOf code.data then some (String.mk (code.data.drop 3)) else none
  let lookups := [pre ++ key]
  let lookups := if code ≠ key then lookups ++ [pre ++ code] else lookups
  match codeKey with
  | some ck => if ck ≠ "" ∧ ck ≠ key then lookups ++ [pre ++ ck] else lookups
  | none => lookups

/-- `eventToWheelLookup`: derive the scroll direction from the deltas,
vertical axis checked first; `none` when both deltas are zero. -/
def eventToWheelLookup (e : WheelEvt) : Option String :=
  let direction : Option String :=
    if e.deltaY < 0 then some "scrollup"
    else if e.deltaY > 0 then some "scrolldown"
    else if e.deltaX < 0 then some "scrollleft"
    else if e.deltaX > 0 then some "scrollright"
    else none
  direction.map
    (fun d => modsCanonical ⟨e.ctrlKey, e.altKey, e.shiftKey, e.metaKey⟩ ++ d)

/-! ## Commands -/

/-- The value returned by a command's `execute`; dispatch only tests
whether it is exactly `false`. -/
inductive JsReturn
  | exactlyFalse
  | notFalse
deriving DecidableEq, Repr

inductive InputEvent
  | key (e : KeyEvt)
  | wheel (e : WheelEvt)

/-- A command definition.  `execute` receives the context and, when
invoked by the dispatch engine, the raw event (`executeCommand` passes
no event, modelled by `none`).  Optional JS fields absent are `none`;
optional booleans absent are `false` (undefined is falsy). -/
structure Command (Ctx : Type) where
  id : String
  label : String
  description : Option String := none
  category : Option String := none
  keys : Option (List String) := none
  mouse : Option (List String) := none
  whenCond : Option (Ctx → Bool) := none
  execute : Ctx → Option InputEvent → JsReturn
  hidden : Bool := false
  captureInput : Bool := false
  menu : Option (List String) := none

/-- `isActive`: a command with no `when` predicate is active. -/
def isActive {Ctx : Type} (command : Command Ctx) (context : Ctx) : Bool :=
  match command.whenCond with
  | none => true
  | some w => w context

/-! ## Lookup tables

JS `Map` is modelled as an association list preserving key insertion
order; `set` on an existing key updates the value in place. -/

abbrev Table (Ctx : Type) := List (String × List (Command Ctx))

def tableAdd {Ctx : Type} (tbl : Table Ctx) (k : String) (cmd : Command Ctx) : Table Ctx :=
  match tbl with
  | [] => [(k, [cmd])]
  | (k', cmds) :: rest =>
    if k' = k then (k', cmds ++ [cmd]) :: rest
    else (k', cmds) :: tableAdd rest k cmd

def tableGet {Ctx : Type} (tbl : Table Ctx) (k : String) : Option (List (Command Ctx)) :=
  (tbl.find? (fun e => e.1 = k)).map (·.2)

structure LookupTables (Ctx : Type) where
  keys : Table Ctx
  mouse : Table Ctx

/-- `buildLookupTables`: index every binding of every command under its
canonical lookup key, in command order.  A parse error is thrown. -/
def buildLookupTables {Ctx : Type} (isMac : Bool) (commands : List (Command Ctx)) :
    Except String (LookupTables Ctx) :=
  commands.foldlM (fun tables cmd => do
    let tk ← (cmd.keys.getD []).foldlM (fun t s => do
      let p ← parseKey isMac s
      pure (tableAdd t (keyToLookup p) cmd)) tables.keys
    let tm ← (cmd.mouse.getD []).foldlM (fun t s => do
      let p ← parseMouse isMac s
      pure (tableAdd t (mouseToLookup p) cmd)) tables.mouse
    pure ⟨tk, tm⟩) ⟨[], []⟩

/-! ## Dispatch engine -/

/-- Observable effects of one dispatch: the ids whose `execute` ran (in
order), who consumed the event, and the `preventDefault` /
`stopPropagation` / `onExecute` effects of `tryExecute`. -/
structure Outcome where
  executed : List String := []
  consumedBy : Option String := none
  defaultPrevented : Bool := false
  propagationStopped : Bool := false
  onExecuteCalled : Option String := none
deriving DecidableEq, Repr

/-- The candidate loop shared by the three handlers, including
`tryExecute`.  `inInput` is always false for mouse/wheel dispatch (the
source's mouse and wheel loops have no captureInput check). -/
def dispatchLoop {Ctx : Type} (candidates : List (Command Ctx)) (context : Ctx)
    (inInput : Bool) (ev : InputEvent) : Outcome :=
  match candidates with
  | [] => {}
  | cmd :: rest =>
    if inInput && !cmd.captureInput then dispatchLoop rest context inInput ev
    else if !isActive cmd context then dispatchLoop rest context inInput ev
    else
      match cmd.execute context (some ev) with
      | .exactlyFalse =>
        let o := dispatchLoop rest context inInput ev
        { o with executed := cmd.id :: o.executed }
      | .notFalse =>
        { executed := [cmd.id], consumedBy := some cmd.id,
          defaultPrevented := true, propagationStopped := true,
          onExecuteCalled := some cmd.id }

/-- Try each candidate lookup string until one has a table entry. -/
def firstHit {Ctx : Type} (tbl : Table Ctx) : List String → Option (List (Command Ctx))
  | [] => none
  | l :: rest =>
    match tableGet tbl l with
    | some cmds => some cmds
    | none => firstHit tbl rest

/-- `handleKeyDown`. -/
def handleKeyDown {Ctx : Type} (tables : LookupTables Ctx) (context : Ctx)
    (e : KeyEvt) : Outcome :=
  if e.targetPaletteOpen || e.targetSettingsOpen then {}
  else
    match firstHit tables.keys (eventToKeyLookups e) with
    | none => {}
    | some candidates => dispatchLoop candidates context e.targetIsTextInput (.key e)

/-- Wheel cooldown cache: canonical lookup string to last-fire time. -/
abbrev Cooldowns := List (String × Int)

def cooldownGet (m : Cooldowns) (k : String) : Option Int :=
  (m.find? (fun e => e.1 = k)).map (·.2)

def cooldownSet (m : Cooldowns) (k : String) (v : Int) : Cooldowns :=
  match m with
  | [] => [(k, v)]
  | (k', v') :: rest => if k' = k then (k', v) :: rest else (k', v') :: cooldownSet rest k v

def WHEEL_COOLDOWN_MS : Int := 100

/-- `handleWheel`: cooldown-gated wheel dispatch.  `now` models
`performance.now()`; the returned map is the updated cooldown cache. -/
def handleWheel {Ctx : Type} (tables : LookupTables Ctx) (context : Ctx)
    (cooldowns : Cooldowns) (e : WheelEvt) (now : Int) : Cooldowns × Outcome :=
  if e.targetPaletteOpen || e.targetSettingsOpen then (cooldowns, {})
  else
    match eventToWheelLookup e with
    | none => (cooldowns, {})
    | some lookupKey =>
      match tableGet tables.mouse lookupKey with
      | none => (cooldowns, {})
      | some candidates =>
        let fire :=
          let o := dispatchLoop candidates context false (.wheel e)
          if o.consumedBy.isSome then (cooldownSet cooldowns lookupKey now, o)
          else (cooldowns, o)
        match cooldownGet cooldowns lookupKey with
        | some lastFire =>
          if now - lastFire < WHEEL_COOLDOWN_MS then (cooldowns, {}) else fire
        | none => fire

/-- Run a timed sequence of wheel events from an empty cooldown cache,
counting how many of them dispatched (consumed) a command. -/
def runWheelSeq {Ctx : Type} (tables : LookupTables Ctx) (context : Ctx)
    (events : List (WheelEvt × Int)) : Cooldowns × Nat :=
  events.foldl (fun st p =>
    let r := handleWheel tables context st.1 p.1 p.2
    (r.1, st.2 + (if r.2.consumedBy.isSome then 1 else 0))) ([], 0)

/-! ## Search: dedupe, matchers, matchCommands -/

/-- Association map used to model the JS `Map` in `dedupeCommands`:
`set` keeps an existing key at its original position. -/
def mapSet {Ctx : Type} (m : List (String × Command Ctx)) (k : String) (v : Command Ctx) :
    List (String × Command Ctx) :=
  match m with
  | [] => [(k, v)]
  | (k', v') :: rest => if k' = k then (k', v) :: rest else (k', v') :: mapSet rest k v

/-- `dedupeCommands`: dedupe by id, last one wins, first-insertion order. -/
def dedupeCommands {Ctx : Type} (commands : List (Command Ctx)) : List (Command Ctx) :=
  (commands.foldl (fun seen cmd => mapSet seen cmd.id cmd) []).map (·.2)

structure MatchResult where
  score : Int
  positions : Option (List Nat) := none
deriving DecidableEq, Repr

abbrev Matcher := String → String → Option MatchResult

/-- JS `Math.round((a / b) * 10)` for the fuzzy ratio bonus, as exact
rational rounding half-up: `⌊(10a/b) + 1/2⌋ = ⌊(20a + b) / (2b)⌋`. -/
def jsRound10 (a b : Nat) : Nat := if b = 0 then 0 else (20 * a + b) / (2 * b)

/-- The body of `fuzzyMatcher`'s while loop.  The query and text are
zipped `(lowercased char, original char)` lists; `ti` is the index of
the head of `zt` in the full text, `lastMatch` the index of the last
matched text char (−1 initially), `prev` the lowercased text char just
before `ti` (`none` at `ti = 0`). -/
def fuzzyGo (zq : List (Char × Char)) (zt : List (Char × Char)) (ti : Nat)
    (lastMatch : Int) (prev : Option Char) (score : Nat) (positions : List Nat) :
    Option (Nat × List Nat) :=
  match zq with
  | [] => some (score, positions)
  | (qc, qo) :: zqRest =>
    match zt with
    | [] => none
    | (tc, tOrig) :: ztRest =>
      if qc = tc then
        let s1 := if (ti : Int) = lastMatch + 1 then score + 2 else score
        let s2 := if ti = 0 ∨ (∃ c, prev = some c ∧ (c = ' ' ∨ c = '-' ∨ c = '_'))
          then s1 + 3 else s1
        let s3 := if qo = tOrig then s2 + 1 else s2
        fuzzyGo zqRest ztRest (ti + 1) (ti : Int) (some tc) s3 (positions ++ [ti])
      else fuzzyGo zq ztRest (ti + 1) lastMatch (some tc) score positions

/-- Pair each character with its lowercased form: `(lower, original)`. -/
def zipLower (s : String) : List (Char × Char) :=
  s.data.map (fun c => (c.toLower, c))

/-- `fuzzyMatcher`: greedy in-order subsequence match with scoring. -/
def fuzzyMatcher : Matcher := fun query text =>
  match fuzzyGo (zipLower query) (zipLower text) 0 (-1) none 0 [] with
  | none => none
  | some (score, positions) =>
    some { score := (score + jsRound10 positions.length text.data.length : Nat),
           positions := some positions }

/-- Model of `String.prototype.includes`: `q` occurs contiguously in the list. -/
def includesList (q : List Char) : List Char → Bool
  | [] => q.isEmpty
  | c :: rest => q.isPrefixOf (c :: rest) || includesList q rest

/-- `simpleMatcher`: case-insensitive substring match. -/
def simpleMatcher : Matcher := fun query text =>
  let q := lowerStr query
  let t := lowerStr text
  if q.data.isPrefixOf t.data then some { score := 2 }
  else if includesList q.data t.data then some { score := 1 }
  else none

/-- A search result: the command's fields (kept whole as `cmd`) plus the
`active`, `score`, and optional `positions` fields added by the spread. -/
structure ScoredCommand (Ctx : Type) where
  cmd : Command Ctx
  active : Bool
  score : Int
  positions : Option (List Nat) := none

/-- The field-priority matching chain:
`matcher(query, label) ?? matcher(query, id) ?? description ?? category`. -/
def scoreCommand {Ctx : Type} (matcher : Matcher) (query : String) (cmd : Command Ctx) :
    Option MatchResult :=
  match matcher query cmd.label with
  | some m => some m
  | none =>
    match matcher query cmd.id with
    | some m => some m
    | none =>
      match (match cmd.description with | some d => matcher query d | none => none) with
      | some m => some m
      | none => match cmd.category with | some c => matcher query c | none => none

/-- The sort comparator as a boolean `a-sorts-no-later-than-b` relation:
the JS comparator returns `≤ 0` exactly on these pairs. -/
def sortLE {Ctx : Type} (a b : ScoredCommand Ctx) : Bool :=
  if a.active ≠ b.active then a.active else b.score ≤ a.score

/-- The `results` array of `matchCommands` before sorting: deduped,
hidden dropped, scored by the field chain. -/
def searchCandidates {Ctx : Type} (commands : List (Command Ctx)) (query : String)
    (context : Ctx) (matcher : Matcher) : List (ScoredCommand Ctx) :=
  (dedupeCommands commands).filterMap (fun cmd =>
    if cmd.hidden then none
    else
      match scoreCommand matcher query cmd with
      | none => none
      | some m =>
        some { cmd := cmd, active := isActive cmd context, score := m.score,
               positions := m.positions })

/-- `matchCommands`: dedupe (last wins), drop hidden, score by the field
chain, then sort active-first / higher-score-first.  `Array.prototype.sort`
is stable (ES2019), modelled by the stable `List.mergeSort`. -/
def matchCommands {Ctx : Type} (commands : List (Command Ctx)) (query : String)
    (context : Ctx) (matcher : Matcher) : List (ScoredCommand Ctx) :=
  (searchCandidates commands query context matcher).mergeSort sortLE

/-- `executeCommand`: find the first command with the id; run it when
active.  The second component records the invocation the JS performs as
a side effect: the invoked id and the event argument (none is passed). -/
def executeCommand {Ctx : Type} (commands : List (Command Ctx)) (id : String)
    (context : Ctx) : Bool × Option (String × Option InputEvent) :=
  match commands.find? (fun c => c.id = id) with
  | some cmd =>
    if isActive cmd context then
      let _ := cmd.execute context none
      (true, some (cmd.id, (none : Option InputEvent)))
    else (false, none)
  | none => (false, none)

/-! ## Schema and conflict detection -/

structure BindingSchema where
  label : String
  description : Option String := none
  category : Option String := none
  keys : Option (List String) := none
  mouse : Option (List String) := none
  hidden : Bool := false
deriving DecidableEq, Repr

/-- `Object.entries(schema)` order is insertion order; the schema is
modelled as the entry list. -/
abbrev Schema := List (String × BindingSchema)

inductive BindingType
  | keys
  | mouse
deriving DecidableEq, Repr

def bindingsOfType (b : BindingSchema) : BindingType → Option (List String)
  | .keys => b.keys
  | .mouse => b.mouse

/-- Candidate normalization: parse then build the canonical lookup key. -/
def canonicalOf (isMac : Bool) (ty : BindingType) (s : String) : Except String String :=
  match ty with
  | .keys => (parseKey isMac s).map keyToLookup
  | .mouse => (parseMouse isMac s).map mouseToLookup

structure ConflictInfo where
  commandId : String
  label : String
deriving DecidableEq, Repr

/-- The inner loop of `findConflict` over one command's binding list:
a parse failure is caught and the binding skipped. -/
def scanBindings (isMac : Bool) (ty : BindingType) (candidateLookup : String) :
    List String → Bool
  | [] => false
  | b :: rest =>
    match canonicalOf isMac ty b with
    | .ok l =>
      if l = candidateLookup then true else scanBindings isMac ty candidateLookup rest
    | .error _ => scanBindings isMac ty candidateLookup rest

/-- The outer loop of `findConflict` over schema entries. -/
def findConflictScan (isMac : Bool) (ty : BindingType) (candidateLookup : String)
    (excludeId : Option String) : Schema → Option ConflictInfo
  | [] => none
  | (id, binding) :: rest =>
    if excludeId = some id then findConflictScan isMac ty candidateLookup excludeId rest
    else
      match bindingsOfType binding ty with
      | none => findConflictScan isMac ty candidateLookup excludeId rest
      | some bs =>
        if scanBindings isMac ty candidateLookup bs then some ⟨id, binding.label⟩
        else findConflictScan isMac ty candidateLookup excludeId rest

/-- `findConflict`: canonicalize the candidate (an unparseable candidate
yields no conflict) and return the first owner of an equal canonical key. -/
def findConflict (isMac : Bool) (schema : Schema) (bindingStr : String)
    (ty : BindingType) (excludeId : Option String) : Option ConflictInfo :=
  match canonicalOf isMac ty bindingStr with
  | .error _ => none
  | .ok candidateLookup => findConflictScan isMac ty candidateLookup excludeId schema

/-! ## Spec-side restatements

These definitions follow the specification's wording and are compared
with the code-derived definitions above by the theorems. -/

/-- The modifier-token vocabulary of `parseMods` (including the platform
macro), used to phrase "the non-modifier tokens". -/
def isModToken (t : String) : Bool :=
  t = "ctrl" || t = "control" || t = "alt" || t = "option" || t = "shift" ||
  t = "meta" || t = "cmd" || t = "command" || t = "$mod"

/-- The non-modifier tokens of a binding string, in order. -/
def primaryTokens (s : String) : List String :=
  (tokenize s).filter (fun t => !isModToken t)

/-- A command is eligible for dispatch when it is not skipped by the
text-input rule nor by its activation predicate. -/
def eligible {Ctx : Type} (inInput : Bool) (context : Ctx) (c : Command Ctx) : Bool :=
  !(inInput && !c.captureInput) && isActive c context

/-- A command declines the event when its action returns exactly `false`. -/
def declines {Ctx : Type} (context : Ctx) (ev : InputEvent) (c : Command Ctx) : Bool :=
  c.execute context (some ev) == JsReturn.exactlyFalse

/-- Modelled from the spec: the dispatch outcome described by steps 4-6 of
the dispatch algorithm, as a function of the eligible candidates: every
declining eligible candidate up to and including the first accepting one
is invoked; the first accepting one consumes the event. -/
def specDispatch {Ctx : Type} (elig : List (Command Ctx)) (context : Ctx)
    (ev : InputEvent) : Outcome :=
  let accept := (elig.dropWhile (declines context ev)).head?
  { executed := (elig.takeWhile (declines context ev)).map (·.id)
      ++ (accept.map (·.id)).toList,
    consumedBy := accept.map (·.id),
    defaultPrevented := accept.isSome,
    propagationStopped := accept.isSome,
    onExecuteCalled := accept.map (·.id) }

/-- `' -_'.includes(c)` -/
def sepChar (c : Char) : Bool := c = ' ' || c = '-' || c = '_'

/-- The spec's word-start condition: position 0 or preceded by
space/hyphen/underscore (in the lowercased text). -/
def wordStart (tlow : List Char) (p : Nat) : Bool :=
  p = 0 || (match tlow[p - 1]? with | some c => sepChar c | none => false)

/-- Modelled from the spec: the fuzzy score of a matched position list,
reading the claim literally — the +2 bonus applies only to a character
immediately consecutive to an actual previous match (`prev` starts
as `none`: a first match gets no +2). -/
def claimScoreAux (torig tlow : List Char) : Option Nat → List (Nat × Char) → Nat
  | _, [] => 0
  | prev, (p, qo) :: rest =>
    (if ∃ pp, prev = some pp ∧ p = pp + 1 then 2 else 0)
    + (if wordStart tlow p then 3 else 0)
    + (if torig[p]? = some qo then 1 else 0)
    + claimScoreAux torig tlow (some p) rest

/-- The claim's total fuzzy score for query/text/positions. -/
def claimScore (query text : String) (positions : List Nat) : Nat :=
  claimScoreAux text.data (lowerStr text).data none (positions.zip query.data)
    + jsRound10 positions.length text.data.length

/-- The amended scoring rule: as the claim, except the previous-match
index starts at −1, so a first match at text position 0 also receives
the +2 consecutive bonus (this is what the code computes). -/
def amendScoreAux (torig tlow : List Char) (prev : Int) : List (Nat × Char) → Nat
  | [] => 0
  | (p, qo) :: rest =>
    (if (p : Int) = prev + 1 then 2 else 0)
    + (if wordStart tlow p then 3 else 0)
    + (if torig[p]? = some qo then 1 else 0)
    + amendScoreAux torig tlow p rest

/-- The amended total fuzzy score for query/text/positions. -/
def amendScore (query text : String) (positions : List Nat) : Nat :=
  amendScoreAux text.data (lowerStr text).data (-1) (positions.zip query.data)
    + jsRound10 positions.length text.data.length

/-- Modelled from the spec: the conflict is the first schema entry (in
entry order), other than the excluded id, owning a binding of the same
type with an equal canonical key. -/
def specConflict (isMac : Bool) (schema : Schema) (bindingStr : String)
    (ty : BindingType) (excludeId : Option String) : Option ConflictInfo :=
  match (canonicalOf isMac ty bindingStr).toOption with
  | none => none
  | some c =>
    (schema.find? (fun e => !(excludeId == some e.1)
        && ((bindingsOfType e.2 ty).getD []).any
              (fun b => (canonicalOf isMac ty b).toOption == some c))).map
      (fun e => ⟨e.1, e.2.label⟩)

/-- A schema with every stored binding string that fails to parse removed
(used to state that `findConflict` skips malformed stored bindings). -/
def dropUnparseable (isMac : Bool) (ty : BindingType) (schema : Schema) : Schema :=
  schema.map (fun e =>
    let b := e.2
    match ty with
    | .keys =>
      (e.1, { b with keys := b.keys.map (fun l =>
        l.filter (fun s => (parseKey isMac s).toOption.isSome)) })
    | .mouse =>
      (e.1, { b with mouse := b.mouse.map (fun l =>
        l.filter (fun s => (parseMouse isMac s).toOption.isSome)) }))

/-! ## Concrete fixtures used by the example parts of the claims -/

instance {ε α : Type} [DecidableEq ε] [DecidableEq α] : DecidableEq (Except ε α) := fun x y =>
  match x, y with
  | .ok a, .ok b =>
    if h : a = b then isTrue (by rw [h]) else isFalse (fun he => by cases he; exact h rfl)
  | .error a, .error b =>
    if h : a = b then isTrue (by rw [h]) else isFalse (fun he => by cases he; exact h rfl)
  | .ok _, .error _ => isFalse (fun he => by cases he)
  | .error _, .ok _ => isFalse (fun he => by cases he)

/-- All 16 modifier combinations. -/
def allMods : List Modifiers :=
  [false, true].flatMap fun c =>
    [false, true].flatMap fun a =>
      [false, true].flatMap fun s =>
        [false, true].map fun m => ⟨c, a, s, m⟩

/-- Example: command A bound to ctrl+s whose activation predicate is false. -/
def cmdA : Command Unit :=
  { id := "A", label := "A", keys := some ["ctrl+s"],
    whenCond := some (fun _ => false), execute := fun _ _ => .notFalse }

/-- Example: command B bound to ctrl+s, always active, consuming. -/
def cmdB : Command Unit :=
  { id := "B", label := "B", keys := some ["ctrl+s"], execute := fun _ _ => .notFalse }

/-- A ctrl+s keydown event. -/
def evCtrlS : KeyEvt := { key := "s", code := "KeyS", ctrlKey := true }

/-- Example: a command bound to the scrollup wheel gesture. -/
def wheelCmd : Command Unit :=
  { id := "W", label := "W", mouse := some ["scrollup"], execute := fun _ _ => .notFalse }

/-- The dispatch tables for `wheelCmd` (the build succeeds; see the C3
theorem, which re-proves the build result). -/
def wheelTables : LookupTables Unit :=
  (buildLookupTables false [wheelCmd]).toOption.getD ⟨[], []⟩

/-- A plain scrollup wheel event. -/
def evScrollUp : WheelEvt := { deltaY := -1 }

/-- Ten scrollup events 5ms apart (all within 50ms). -/
def wheelBurst : List (WheelEvt × Int) := (List.range 10).map (fun i => (evScrollUp, 5 * (i : Int)))

/-- Two scrollup events 150ms apart. -/
def wheelSpaced : List (WheelEvt × Int) := [(evScrollUp, 0), (evScrollUp, 150)]

/-- Example pair sharing the id "save" (later entry has different fields). -/
def saveOld : Command Unit :=
  { id := "save", label := "Old Save", execute := fun _ _ => .notFalse }

def saveNew : Command Unit :=
  { id := "save", label := "Save File", description := some "write the file",
    execute := fun _ _ => .notFalse }

/-- Example schema: two commands sharing canonical binding ctrl+shift+s. -/
def conflictSchema : Schema :=
  [("first", { label := "First", keys := some ["ctrl+shift+s"] }),
   ("second", { label := "Second", keys := some ["shift+ctrl+s"] })]

/-- Example commands sharing an id where the first match is inactive. -/
def dupFirstInactive : Command Unit :=
  { id := "x", label := "first entry",
    whenCond := some (fun _ => false), execute := fun _ _ => .notFalse }

def dupSecondActive : Command Unit :=
  { id := "x", label := "second entry", execute := fun _ _ => .notFalse }

/-- Tie fixtures for the stable-sort part of the search claim: two
distinct always-active commands whose labels score identically. -/
def tieA : Command Unit := { id := "aa", label := "go", execute := fun _ _ => .notFalse }

def tieB : Command Unit := { id := "bb", label := "go", execute := fun _ _ => .notFalse }

end Keybinds


namespace Keybinds

/-! ### Parser lemmas -/

lemma parseModsStep_snd (isMac : Bool) (st : Modifiers × List String) (p : String) :
    (parseModsStep isMac st p).2 = if isModToken p then st.2 else st.2 ++ [p] := by
  simp only [parseModsStep, isModToken]
  split_ifs <;> simp_all

lemma foldl_parseModsStep_snd (isMac : Bool) :
    ∀ (parts : List String) (st : Modifiers × List String),
      (parts.foldl (parseModsStep isMac) st).2 =
        st.2 ++ parts.filter (fun t => !isModToken t) := by
  intro parts
  induction parts with
  | nil => intro st; simp
  | cons p ps ih =>
    intro st
    rw [List.foldl_cons, ih, parseModsStep_snd]
    by_cases hp : isModToken p <;> simp [hp, List.filter_cons]

lemma parseMods_snd (isMac : Bool) (parts : List String) :
    (parseMods isMac parts).2 = parts.filter (fun t => !isModToken t) := by
  simp [parseMods, foldl_parseModsStep_snd]

lemma primaryTokens_eq (isMac : Bool) (s : String) :
    (parseMods isMac (tokenize s)).2 = primaryTokens s := by
  rw [parseMods_snd]; rfl

lemma except_error_iff_not_ok {e a : Type} (x : Except e a) :
    (∃ err, x = Except.error err) ↔ ¬ ∃ v, x = Except.ok v := by
  cases x <;> simp

lemma parseKey_ok_iff (isMac : Bool) (s : String) (pm : Modifiers) (pk : String) :
    parseKey isMac s = .ok ⟨pm, pk⟩ ↔
      s ≠ "" ∧ primaryTokens s = [pk] ∧ VALID_KEYS.contains pk = true ∧
        pm = (parseMods isMac (tokenize s)).1 := by
  have hPT := primaryTokens_eq isMac s
  by_cases hs : s = ""
  · simp [parseKey, hs]
  by_cases hz : tokenize s = []
  · have hr : primaryTokens s = [] := by simp [primaryTokens, hz]
    simp [parseKey, hs, hz, hr]
  rcases hr : primaryTokens s with _ | ⟨k, ks⟩
  · rw [hr] at hPT
    simp [parseKey, hs, hz, hPT]
  rcases ks with _ | ⟨k2, ks2⟩
  · rw [hr] at hPT
    by_cases hc : VALID_KEYS.contains k = true
    · simp only [parseKey, if_neg hs, if_neg hz, hPT, hc, if_true]
      constructor
      · intro h
        injection h with h
        injection h with h1 h2
        exact ⟨hs, by rw [h2], by rw [← h2]; exact hc, h1.symm⟩
      · rintro ⟨-, hpk, -, hm⟩
        injection hpk with hpk
        simp [hpk, hm]
    · have hcm : ¬ (k ∈ VALID_KEYS) := by simpa using hc
      simp [parseKey, hs, hz, hPT, hcm]
      rintro rfl
      exact fun hmem => absurd hmem hcm
  · rw [hr] at hPT
    simp [parseKey, hs, hz, hPT]


lemma parseMouse_ok_iff (isMac : Bool) (s : String) (pm : Modifiers) (pb : Nat) :
    parseMouse isMac s = .ok ⟨pm, pb⟩ ↔
      s ≠ "" ∧ (∃ btn, primaryTokens s = [btn] ∧ VALID_MOUSE.contains btn = true ∧
        pb = buttonIndex btn) ∧ pm = (parseMods isMac (tokenize s)).1 := by
  have hPT := primaryTokens_eq isMac s
  by_cases hs : s = ""
  · simp [parseMouse, hs]
  by_cases hz : tokenize s = []
  · have hr : primaryTokens s = [] := by simp [primaryTokens, hz]
    simp [parseMouse, hs, hz, hr]
  rcases hr : primaryTokens s with _ | ⟨k, ks⟩
  · rw [hr] at hPT
    simp [parseMouse, hs, hz, hPT, hr]
  rcases ks with _ | ⟨k2, ks2⟩
  · rw [hr] at hPT
    by_cases hc : VALID_MOUSE.contains k = true
    · simp only [parseMouse, if_neg hs, if_neg hz, hPT, hc, if_true]
      constructor
      · intro h
        injection h with h
        injection h with h1 h2
        exact ⟨hs, ⟨k, rfl, hc, h2.symm⟩, h1.symm⟩
      · rintro ⟨-, ⟨btn, hbtn, -, hb⟩, hm⟩
        injection hbtn with hbtn
        subst hbtn
        simp [hb, hm]
    · have hcm : ¬ (k ∈ VALID_MOUSE) := by simpa using hc
      simp only [parseMouse, if_neg hs, if_neg hz, hPT]
      simp [hcm]
  · rw [hr] at hPT
    simp [parseMouse, hs, hz, hPT]


lemma mem_bool (b : Bool) : b ∈ [false, true] := by cases b <;> decide

lemma mem_allMods (m : Modifiers) : m ∈ allMods := by
  rcases m with ⟨c, a, sh, me⟩
  cases c <;> cases a <;> cases sh <;> cases me <;> decide

lemma roundtrip_key_enum : ∀ mac ∈ [false, true], ∀ m ∈ allMods, ∀ k ∈ VALID_KEYS,
    parseKey mac (keyToLookup ⟨m, k⟩) = .ok ⟨m, k⟩ := by decide

lemma roundtrip_mouse_enum : ∀ mac ∈ [false, true], ∀ m ∈ allMods, ∀ b ∈ VALID_MOUSE,
    parseMouse mac (mouseToLookup ⟨m, buttonIndex b⟩) = .ok ⟨m, buttonIndex b⟩ := by decide

/-- C2: for every binding string accepted by the key or mouse parser,
re-parsing its canonical serialization yields the same parsed result. -/
theorem c2_canonical_roundtrip (isMac : Bool) (s : String) :
    (∀ p, parseKey isMac s = .ok p → parseKey isMac (keyToLookup p) = .ok p)
    ∧ (∀ p, parseMouse isMac s = .ok p → parseMouse isMac (mouseToLookup p) = .ok p) := by
  constructor
  · rintro ⟨pm, pk⟩ h
    rw [parseKey_ok_iff] at h
    have hmem : pk ∈ VALID_KEYS := by simpa using h.2.2.1
    exact roundtrip_key_enum isMac (mem_bool isMac) pm (mem_allMods pm) pk hmem
  · rintro ⟨pm, pb⟩ h
    rw [parseMouse_ok_iff] at h
    obtain ⟨-, ⟨btn, -, hc, hb⟩, -⟩ := h
    have hmem : btn ∈ VALID_MOUSE := by simpa using hc
    subst hb
    exact roundtrip_mouse_enum isMac (mem_bool isMac) pm (mem_allMods pm) btn hmem

/-- Witness for C2 at the concrete binding "Ctrl+S". -/
theorem c2_canonical_roundtrip_witness :
    parseKey false "Ctrl+S" = .ok ⟨⟨true, false, false, false⟩, "s"⟩ ∧
    parseKey false (keyToLookup ⟨⟨true, false, false, false⟩, "s"⟩) =
      .ok ⟨⟨true, false, false, false⟩, "s"⟩ :=
  ⟨by decide, (c2_canonical_roundtrip false "Ctrl+S").1 _ (by decide)⟩

/-- C4: the parsers fail exactly on: empty input, no primary token after
modifier extraction, more than one primary token, or an unrecognized
primary token; on every other string they return a parsed result. -/
theorem c4_parser_error_conditions (isMac : Bool) (s : String) :
    ((∃ e, parseKey isMac s = .error e) ↔
      (s = "" ∨ primaryTokens s = [] ∨ 1 < (primaryTokens s).length ∨
        ∃ k, primaryTokens s = [k] ∧ ¬ VALID_KEYS.contains k = true))
    ∧ ((∃ e, parseMouse isMac s = .error e) ↔
      (s = "" ∨ primaryTokens s = [] ∨ 1 < (primaryTokens s).length ∨
        ∃ b, primaryTokens s = [b] ∧ ¬ VALID_MOUSE.contains b = true)) := by
  have hkey : (∃ p, parseKey isMac s = .ok p) ↔
      (s ≠ "" ∧ ∃ k, primaryTokens s = [k] ∧ VALID_KEYS.contains k = true) := by
    constructor
    · rintro ⟨⟨pmm, pkk⟩, h⟩
      rw [parseKey_ok_iff] at h
      exact ⟨h.1, pkk, h.2.1, h.2.2.1⟩
    · rintro ⟨hs, k, hk, hc⟩
      exact ⟨⟨(parseMods isMac (tokenize s)).1, k⟩,
        (parseKey_ok_iff isMac s _ k).mpr ⟨hs, hk, hc, rfl⟩⟩
  have hmouse : (∃ p, parseMouse isMac s = .ok p) ↔
      (s ≠ "" ∧ ∃ b, primaryTokens s = [b] ∧ VALID_MOUSE.contains b = true) := by
    constructor
    · rintro ⟨⟨pmm, pbb⟩, h⟩
      rw [parseMouse_ok_iff] at h
      obtain ⟨hs, ⟨btn, hb1, hb2, -⟩, -⟩ := h
      exact ⟨hs, btn, hb1, hb2⟩
    · rintro ⟨hs, b, hb, hc⟩
      exact ⟨⟨(parseMods isMac (tokenize s)).1, buttonIndex b⟩,
        (parseMouse_ok_iff isMac s _ _).mpr ⟨hs, ⟨b, hb, hc, rfl⟩, rfl⟩⟩
  constructor
  · rw [except_error_iff_not_ok, hkey]
    by_cases hs : s = ""
    · simp [hs]
    rcases hr : primaryTokens s with _ | ⟨k, ks⟩
    · simp [hs]
    rcases ks with _ | ⟨k2, ks2⟩
    · simp [hs]
    · simp [hs]
  · rw [except_error_iff_not_ok, hmouse]
    by_cases hs : s = ""
    · simp [hs]
    rcases hr : primaryTokens s with _ | ⟨k, ks⟩
    · simp [hs]
    rcases ks with _ | ⟨k2, ks2⟩
    · simp [hs]
    · simp [hs]


/-- C1: key dispatch iterates the candidate list in registration order,
skips text-input-ineligible and inactive candidates, invokes the first
eligible candidate's execute with (context, event), continues past
candidates returning exactly false, and on the first other return value
prevents default, stops propagation, and calls onExecute; with [A, B]
both bound to ctrl+s and A's predicate false, dispatch invokes B. -/
theorem c1_dispatch_order (Ctx : Type) (candidates : List (Command Ctx)) (context : Ctx)
    (inInput : Bool) (ev : InputEvent) :
    dispatchLoop candidates context inInput ev =
      specDispatch (candidates.filter (eligible inInput context)) context ev
    ∧ (∃ tables, buildLookupTables false [cmdA, cmdB] = .ok tables ∧
        handleKeyDown tables () evCtrlS =
          { executed := ["B"], consumedBy := some "B", defaultPrevented := true,
            propagationStopped := true, onExecuteCalled := some "B" }) := by
  constructor
  · induction candidates with
    | nil => simp [dispatchLoop, specDispatch]
    | cons cmd rest ih =>
      cases hcap : (inInput && !cmd.captureInput) with
      | true =>
        have he : eligible inInput context cmd = false := by simp [eligible, hcap]
        simp [dispatchLoop, hcap, List.filter_cons, he, ih]
      | false =>
        cases hact : isActive cmd context with
        | false =>
          have he : eligible inInput context cmd = false := by simp [eligible, hact]
          simp [dispatchLoop, hcap, hact, List.filter_cons, he, ih]
        | true =>
          have he : eligible inInput context cmd = true := by simp [eligible, hcap, hact]
          cases hex : cmd.execute context (some ev) with
          | exactlyFalse =>
            have hdec : declines context ev cmd = true := by simp [declines, hex]
            simp [dispatchLoop, hcap, hact, hex, List.filter_cons, he, specDispatch,
              hdec, ih]
          | notFalse =>
            have hdec : declines context ev cmd = false := by simp [declines, hex]
            simp [dispatchLoop, hcap, hact, hex, List.filter_cons, he, specDispatch, hdec]
  · refine ⟨(buildLookupTables false [cmdA, cmdB]).toOption.getD ⟨[], []⟩, ?_, ?_⟩ <;> rfl


/-- C3: a wheel event whose lookup string has a cooldown timestamp less
than 100ms old is dropped with no dispatch and no state change; a
consuming dispatch records the current time for the lookup string; ten
scrollup events within 50ms dispatch once, two events 150ms apart twice. -/
theorem c3_wheel_cooldown (Ctx : Type) (tables : LookupTables Ctx) (context : Ctx)
    (cooldowns : Cooldowns) (e : WheelEvt) (now lastFire : Int) (k : String) :
    (eventToWheelLookup e = some k → cooldownGet cooldowns k = some lastFire →
      now - lastFire < 100 → handleWheel tables context cooldowns e now = (cooldowns, {}))
    ∧ (eventToWheelLookup e = some k →
        (handleWheel tables context cooldowns e now).2.consumedBy.isSome = true →
        (handleWheel tables context cooldowns e now).1 = cooldownSet cooldowns k now)
    ∧ ((runWheelSeq wheelTables () wheelBurst).2 = 1
        ∧ (runWheelSeq wheelTables () wheelSpaced).2 = 2
        ∧ buildLookupTables false [wheelCmd] = .ok wheelTables) := by
  refine ⟨?_, ?_, ?_, ?_, ?_⟩
  · intro hk hget hlt
    cases hpal : (e.targetPaletteOpen || e.targetSettingsOpen) with
    | true => simp [handleWheel, hpal]
    | false =>
      rcases htb : tableGet tables.mouse k with _ | cands
      · simp [handleWheel, hpal, hk, htb]
      · simp [handleWheel, hpal, hk, htb, hget, WHEEL_COOLDOWN_MS, hlt]
  · intro hk hcons
    cases hpal : (e.targetPaletteOpen || e.targetSettingsOpen) with
    | true => simp [handleWheel, hpal] at hcons
    | false =>
      rcases htb : tableGet tables.mouse k with _ | cands
      · simp [handleWheel, hpal, hk, htb] at hcons
      · rcases hget : cooldownGet cooldowns k with _ | lf
        · simp only [handleWheel, hpal, hk, htb, hget] at hcons ⊢
          simp only [Bool.false_eq_true, if_false]
          rcases hfire : (dispatchLoop cands context false (InputEvent.wheel e)).consumedBy.isSome with _ | _
          · simp [hfire] at hcons ⊢
          · simp [hfire] at hcons ⊢
        · by_cases hlt : now - lf < WHEEL_COOLDOWN_MS
          · simp [handleWheel, hpal, hk, htb, hget, hlt] at hcons
          · simp only [handleWheel, hpal, hk, htb, hget] at hcons ⊢
            simp only [Bool.false_eq_true, if_false, if_neg hlt] at hcons ⊢
            rcases hfire : (dispatchLoop cands context false (InputEvent.wheel e)).consumedBy.isSome with _ | _
            · simp [hfire] at hcons ⊢
            · simp [hfire] at hcons ⊢
  · rfl
  · rfl
  · rfl

/-- Witness for C3: a scrollup event 50ms after a recorded fire is
dropped; a consuming dispatch from an empty cache records the time. -/
theorem c3_wheel_cooldown_witness :
    handleWheel wheelTables () [("scrollup", (0 : Int))] evScrollUp 50 =
      ([("scrollup", (0 : Int))], {})
    ∧ (handleWheel wheelTables () [] evScrollUp 0).1 = cooldownSet [] "scrollup" 0 :=
  ⟨(c3_wheel_cooldown Unit wheelTables () [("scrollup", (0 : Int))] evScrollUp 50 0
      "scrollup").1 (by decide) (by decide) (by decide),
   (c3_wheel_cooldown Unit wheelTables () [] evScrollUp 0 0 "scrollup").2.1
      (by decide) (by decide)⟩

/-- C7: the wheel direction is taken from the vertical delta when it is
nonzero (up for negative, down for positive), otherwise from the
horizontal delta; when both deltas are zero no lookup is produced and
the event is inert (no dispatch, no state change). -/
theorem c7_wheel_direction (e : WheelEvt) :
    (eventToWheelLookup e = none ↔ e.deltaY = 0 ∧ e.deltaX = 0)
    ∧ (e.deltaY < 0 → eventToWheelLookup e =
        some (modsCanonical ⟨e.ctrlKey, e.altKey, e.shiftKey, e.metaKey⟩ ++ "scrollup"))
    ∧ (0 < e.deltaY → eventToWheelLookup e =
        some (modsCanonical ⟨e.ctrlKey, e.altKey, e.shiftKey, e.metaKey⟩ ++ "scrolldown"))
    ∧ (e.deltaY = 0 → e.deltaX < 0 → eventToWheelLookup e =
        some (modsCanonical ⟨e.ctrlKey, e.altKey, e.shiftKey, e.metaKey⟩ ++ "scrollleft"))
    ∧ (e.deltaY = 0 → 0 < e.deltaX → eventToWheelLookup e =
        some (modsCanonical ⟨e.ctrlKey, e.altKey, e.shiftKey, e.metaKey⟩ ++ "scrollright"))
    ∧ (e.deltaY = 0 → e.deltaX = 0 →
        ∀ (Ctx : Type) (tables : LookupTables Ctx) (context : Ctx)
          (cooldowns : Cooldowns) (now : Int),
          handleWheel tables context cooldowns e now = (cooldowns, {})) := by
  refine ⟨?_, ?_, ?_, ?_, ?_, ?_⟩
  · unfold eventToWheelLookup
    split_ifs with h1 h2 h3 h4 <;> simp <;> omega
  · intro h
    simp [eventToWheelLookup, h]
  · intro h
    have h1 : ¬ (e.deltaY < 0) := by omega
    simp [eventToWheelLookup, h1, h]
  · intro h h2
    have h1 : ¬ (e.deltaY < 0) := by omega
    have h3 : ¬ (e.deltaY > 0) := by omega
    simp [eventToWheelLookup, h1, h3, h2]
  · intro h h2
    have h1 : ¬ (e.deltaY < 0) := by omega
    have h3 : ¬ (e.deltaY > 0) := by omega
    have h4 : ¬ (e.deltaX < 0) := by omega
    simp [eventToWheelLookup, h1, h3, h4, h2]
  · intro h1 h2 Ctx tables context cooldowns now
    have hl : eventToWheelLookup e = none := by
      simp [eventToWheelLookup, h1, h2]
    simp [handleWheel, hl]

/-- Witness for C7 at concrete wheel events. -/
theorem c7_wheel_direction_witness :
    eventToWheelLookup { deltaY := -3, ctrlKey := true } = some "ctrl+scrollup"
    ∧ eventToWheelLookup { deltaY := 0, deltaX := -2 } = some "scrollleft"
    ∧ handleWheel wheelTables () [] { deltaY := 0, deltaX := 0 } 7 = ([], {}) :=
  ⟨(c7_wheel_direction { deltaY := -3, ctrlKey := true }).2.1 (by decide),
   (c7_wheel_direction { deltaY := 0, deltaX := -2 }).2.2.2.1 rfl (by decide),
   (c7_wheel_direction { deltaY := 0, deltaX := 0 }).2.2.2.2.2 rfl rfl Unit wheelTables ()
     [] 7⟩


/-! ### Conflict-detection lemmas -/

lemma scanBindings_any (isMac : Bool) (ty : BindingType) (c : String) :
    ∀ bs : List String, scanBindings isMac ty c bs =
      bs.any (fun b => (canonicalOf isMac ty b).toOption == some c) := by
  intro bs
  induction bs with
  | nil => simp [scanBindings]
  | cons b rest ih =>
    rcases hb : canonicalOf isMac ty b with err | l
    · have hf : (((Except.error err : Except String String).toOption == some c)) = false := rfl
      simp only [scanBindings, hb, List.any_cons, hf, Bool.false_or]
      exact ih
    · by_cases hl : l = c
      · simp [scanBindings, hb, hl, Except.toOption]
      · have hf : (((Except.ok l : Except String String).toOption == some c)) = false := by
          simp [Except.toOption, hl]
        simp only [scanBindings, hb, if_neg hl, List.any_cons, hf, Bool.false_or]
        exact ih

lemma findConflictScan_eq (isMac : Bool) (ty : BindingType) (c : String)
    (ex : Option String) :
    ∀ schema : Schema, findConflictScan isMac ty c ex schema =
      (schema.find? (fun e => !(ex == some e.1)
          && ((bindingsOfType e.2 ty).getD []).any
                (fun b => (canonicalOf isMac ty b).toOption == some c))).map
        (fun e => ⟨e.1, e.2.label⟩) := by
  intro schema
  induction schema with
  | nil => simp [findConflictScan]
  | cons entry rest ih =>
    obtain ⟨id, binding⟩ := entry
    by_cases hex : ex = some id
    · subst hex
      simp [findConflictScan, List.find?_cons, ih]
    · have hbeq : (ex == some id) = false := by simp [hex]
      rcases hb : bindingsOfType binding ty with _ | bs
      · simp [findConflictScan, hex, List.find?_cons, hbeq, hb, ih]
      · by_cases hscan : scanBindings isMac ty c bs = true
        · have hany : bs.any (fun b => (canonicalOf isMac ty b).toOption == some c)
              = true := by
            rw [← scanBindings_any]; exact hscan
          simp [findConflictScan, hex, List.find?_cons, hbeq, hb, hscan, hany]
        · simp only [Bool.not_eq_true] at hscan
          have hany : bs.any (fun b => (canonicalOf isMac ty b).toOption == some c)
              = false := by
            rw [← scanBindings_any]; exact hscan
          simp [findConflictScan, hex, List.find?_cons, hbeq, hb, hscan, hany, ih]

/-- C8: findConflict canonicalizes the candidate and returns the id and
label of the first schema entry (in order, skipping the excluded id)
owning a same-type binding with an equal canonical key, or none; with
two commands sharing canonical ctrl+shift+s, a check for a third
command returns the first owner. -/
theorem c8_find_conflict (isMac : Bool) (schema : Schema) (s : String)
    (ty : BindingType) (ex : Option String) :
    findConflict isMac schema s ty ex = specConflict isMac schema s ty ex
    ∧ findConflict false conflictSchema "ctrl+shift+s" .keys (some "third") =
        some ⟨"first", "First"⟩ := by
  constructor
  · rcases hc : canonicalOf isMac ty s with err | c
    · simp [findConflict, specConflict, hc, Except.toOption]
    · simp [findConflict, specConflict, hc, findConflictScan_eq, Except.toOption]
  · rfl

/-! Skipping of unparseable stored bindings. -/

lemma scanBindings_dropKeys (isMac : Bool) (c : String) :
    ∀ bs : List String,
      scanBindings isMac .keys c
          (bs.filter (fun b => (parseKey isMac b).toOption.isSome)) =
        scanBindings isMac .keys c bs := by
  intro bs
  induction bs with
  | nil => rfl
  | cons b rest ih =>
    rcases hb : parseKey isMac b with err | pk
    · have hb2 : canonicalOf isMac .keys b = .error err := by
        simp [canonicalOf, hb, Except.map]
      have hp : ((parseKey isMac b).toOption.isSome) = false := by
        rw [hb]; rfl
      simp only [List.filter_cons, hp, Bool.false_eq_true, if_false, scanBindings, hb2]
      exact ih
    · have hb2 : canonicalOf isMac .keys b = .ok (keyToLookup pk) := by
        simp [canonicalOf, hb, Except.map]
      have hp : ((parseKey isMac b).toOption.isSome) = true := by
        rw [hb]; rfl
      by_cases hl : keyToLookup pk = c
      · simp [List.filter_cons, hp, scanBindings, hb2, hl]
      · simp only [List.filter_cons, hp, if_true, scanBindings, hb2, if_neg hl]
        exact ih

lemma scanBindings_dropMouse (isMac : Bool) (c : String) :
    ∀ bs : List String,
      scanBindings isMac .mouse c
          (bs.filter (fun b => (parseMouse isMac b).toOption.isSome)) =
        scanBindings isMac .mouse c bs := by
  intro bs
  induction bs with
  | nil => rfl
  | cons b rest ih =>
    rcases hb : parseMouse isMac b with err | pb
    · have hb2 : canonicalOf isMac .mouse b = .error err := by
        simp [canonicalOf, hb, Except.map]
      have hp : ((parseMouse isMac b).toOption.isSome) = false := by
        rw [hb]; rfl
      simp only [List.filter_cons, hp, Bool.false_eq_true, if_false, scanBindings, hb2]
      exact ih
    · have hb2 : canonicalOf isMac .mouse b = .ok (mouseToLookup pb) := by
        simp [canonicalOf, hb, Except.map]
      have hp : ((parseMouse isMac b).toOption.isSome) = true := by
        rw [hb]; rfl
      by_cases hl : mouseToLookup pb = c
      · simp [List.filter_cons, hp, scanBindings, hb2, hl]
      · simp only [List.filter_cons, hp, if_true, scanBindings, hb2, if_neg hl]
        exact ih

lemma findConflictScan_drop (isMac : Bool) (ty : BindingType) (c : String)
    (ex : Option String) :
    ∀ schema : Schema,
      findConflictScan isMac ty c ex (dropUnparseable isMac ty schema) =
        findConflictScan isMac ty c ex schema := by
  intro schema
  cases ty with
  | keys =>
    induction schema with
    | nil => rfl
    | cons entry rest ih =>
      obtain ⟨id, binding⟩ := entry
      simp only [dropUnparseable, List.map_cons] at ih ⊢
      by_cases hex : ex = some id
      · subst hex
        simp [findConflictScan, ih]
      · rcases hbind : binding.keys with _ | bs
        · simp [findConflictScan, hex, bindingsOfType, hbind, ih]
        · have h2 := scanBindings_dropKeys isMac c bs
          by_cases hsb : scanBindings isMac BindingType.keys c bs = true
          · simp [findConflictScan, hex, bindingsOfType, hbind, h2, hsb]
          · simp only [Bool.not_eq_true] at hsb
            simp [findConflictScan, hex, bindingsOfType, hbind, h2, hsb, ih]
  | mouse =>
    induction schema with
    | nil => rfl
    | cons entry rest ih =>
      obtain ⟨id, binding⟩ := entry
      simp only [dropUnparseable, List.map_cons] at ih ⊢
      by_cases hex : ex = some id
      · subst hex
        simp [findConflictScan, ih]
      · rcases hbind : binding.mouse with _ | bs
        · simp [findConflictScan, hex, bindingsOfType, hbind, ih]
        · have h2 := scanBindings_dropMouse isMac c bs
          by_cases hsb : scanBindings isMac BindingType.mouse c bs = true
          · simp [findConflictScan, hex, bindingsOfType, hbind, h2, hsb]
          · simp only [Bool.not_eq_true] at hsb
            simp [findConflictScan, hex, bindingsOfType, hbind, h2, hsb, ih]

/-- C9: findConflict is total and never throws: an unparseable candidate
yields the no-conflict result, and stored binding strings that fail to
parse are skipped during the scan (removing them changes nothing). -/
theorem c9_find_conflict_total (isMac : Bool) (schema : Schema) (s : String)
    (ty : BindingType) (ex : Option String) :
    ((∃ e, canonicalOf isMac ty s = .error e) →
      findConflict isMac schema s ty ex = none)
    ∧ findConflict isMac schema s ty ex =
        findConflict isMac (dropUnparseable isMac ty schema) s ty ex := by
  constructor
  · rintro ⟨e, he⟩
    simp [findConflict, he]
  · rcases hc : canonicalOf isMac ty s with err | c
    · simp [findConflict, hc]
    · simp only [findConflict, hc]
      rw [findConflictScan_drop]

/-- Witness for C9: the unparseable candidate "notakey" yields none. -/
theorem c9_find_conflict_total_witness :
    findConflict false conflictSchema "notakey" .keys none = none :=
  (c9_find_conflict_total false conflictSchema "notakey" .keys none).1
    ⟨"Unknown key", by decide⟩

/-- C10: executeCommand invokes the earliest command whose id matches
(first match wins, unlike the last-wins dedup used by search), returns
true iff that first match exists and is active, and calls execute with
the context but no event argument. -/
theorem c10_execute_by_id (Ctx : Type) (commands : List (Command Ctx)) (id : String)
    (context : Ctx) :
    ((executeCommand commands id context).1 = true ↔
      ∃ c, commands.find? (fun c2 => c2.id = id) = some c ∧ isActive c context = true)
    ∧ (∀ c, commands.find? (fun c2 => c2.id = id) = some c → isActive c context = true →
        executeCommand commands id context = (true, some (c.id, none)))
    ∧ ((executeCommand commands id context).1 = false →
        (executeCommand commands id context).2 = none)
    ∧ (executeCommand [dupFirstInactive, dupSecondActive] "x" () = (false, none)
        ∧ executeCommand (dedupeCommands [dupFirstInactive, dupSecondActive]) "x" () =
            (true, some ("x", none))) := by
  refine ⟨?_, ?_, ?_, rfl, rfl⟩
  · rcases hf : commands.find? (fun c2 => c2.id = id) with _ | c
    · simp [executeCommand, hf]
    · by_cases ha : isActive c context = true
      · simp [executeCommand, hf, ha]
      · simp only [Bool.not_eq_true] at ha
        simp [executeCommand, hf, ha]
  · intro c hf ha
    simp [executeCommand, hf, ha]
  · rcases hf : commands.find? (fun c2 => c2.id = id) with _ | c
    · simp [executeCommand, hf]
    · by_cases ha : isActive c context = true
      · simp [executeCommand, hf, ha]
      · simp only [Bool.not_eq_true] at ha
        simp [executeCommand, hf, ha]

/-- Witness for C10: the single active command "x" is found and run with
no event argument. -/
theorem c10_execute_by_id_witness :
    executeCommand [dupSecondActive] "x" () = (true, some ("x", none)) := by
  have h := (c10_execute_by_id Unit [dupSecondActive] "x" ()).2.1 dupSecondActive
    (by rfl) (by rfl)
  simpa [dupSecondActive] using h


/-! ### Fuzzy matcher lemmas -/

lemma zipLower_fst (s : String) : (zipLower s).map Prod.fst = (lowerStr s).data := by
  simp [zipLower, lowerStr, List.map_map]

lemma zipLower_snd (s : String) : (zipLower s).map Prod.snd = s.data := by
  simp only [zipLower, List.map_map]
  exact List.map_id s.data

lemma fuzzyGo_isSome_iff :
    ∀ (zt zq : List (Char × Char)) (ti : Nat) (lm : Int) (prev : Option Char)
      (sc : Nat) (pos : List Nat),
      (fuzzyGo zq zt ti lm prev sc pos).isSome = true ↔
        List.Sublist (zq.map Prod.fst) (zt.map Prod.fst) := by
  intro zt
  induction zt with
  | nil =>
    intro zq ti lm prev sc pos
    cases zq with
    | nil => simp [fuzzyGo]
    | cons q zq2 =>
      obtain ⟨qc, qo⟩ := q
      simp [fuzzyGo]
  | cons t zt2 ih =>
    intro zq ti lm prev sc pos
    cases zq with
    | nil => simp [fuzzyGo]
    | cons q zq2 =>
      obtain ⟨qc, qo⟩ := q
      obtain ⟨tc, tOrig⟩ := t
      by_cases h : qc = tc
      · subst h
        simp only [fuzzyGo, List.map_cons]
        rw [if_pos trivial, ih, List.cons_sublist_cons]
      · simp only [fuzzyGo, if_neg h, List.map_cons]
        rw [ih]
        constructor
        · intro hs
          exact hs.cons _
        · intro hs
          cases hs with
          | cons _ h2 => exact h2
          | cons₂ => exact absurd rfl h

lemma fuzzyGo_score (ztFull : List (Char × Char)) :
    ∀ (zt zq : List (Char × Char)) (ti : Nat) (lm : Int) (prev : Option Char)
      (sc : Nat) (pos : List Nat) (s : Nat) (P : List Nat),
      (∀ j : Nat, zt[j]? = ztFull[ti + j]?) →
      ((ti = 0 ∧ prev = none) ∨
        (ti ≠ 0 ∧ prev = (ztFull.map Prod.fst)[ti - 1]?)) →
      fuzzyGo zq zt ti lm prev sc pos = some (s, P) →
      ∃ newPs, P = pos ++ newPs ∧
        s = sc + amendScoreAux (ztFull.map Prod.snd) (ztFull.map Prod.fst) lm
              (newPs.zip (zq.map Prod.snd)) := by
  intro zt
  induction zt with
  | nil =>
    intro zq ti lm prev sc pos s P hidx hprev hgo
    cases zq with
    | nil =>
      simp only [fuzzyGo] at hgo
      injection hgo with hgo
      injection hgo with h1 h2
      subst h1; subst h2
      exact ⟨[], by simp, by simp [amendScoreAux]⟩
    | cons q zq2 =>
      obtain ⟨qc, qo⟩ := q
      simp [fuzzyGo] at hgo
  | cons t zt2 ih =>
    intro zq ti lm prev sc pos s P hidx hprev hgo
    cases zq with
    | nil =>
      simp only [fuzzyGo] at hgo
      injection hgo with hgo
      injection hgo with h1 h2
      subst h1; subst h2
      exact ⟨[], by simp, by simp [amendScoreAux]⟩
    | cons q zq2 =>
      obtain ⟨qc, qo⟩ := q
      obtain ⟨tc, tOrig⟩ := t
      have hat : ztFull[ti]? = some (tc, tOrig) := by
        have h0 := hidx 0
        simp only [Nat.add_zero, List.getElem?_cons_zero] at h0
        exact h0.symm
      have htlow : (ztFull.map Prod.fst)[ti]? = some tc := by
        simp [List.getElem?_map, hat]
      have htorig : (ztFull.map Prod.snd)[ti]? = some tOrig := by
        simp [List.getElem?_map, hat]
      have hidx2 : ∀ j : Nat, zt2[j]? = ztFull[(ti + 1) + j]? := by
        intro j
        have hj := hidx (j + 1)
        simp only [List.getElem?_cons_succ] at hj
        rw [hj]
        congr 1
        omega
      have hprev2 : ((ti + 1 = 0 ∧ (some tc : Option Char) = none) ∨
          (ti + 1 ≠ 0 ∧ (some tc : Option Char) =
            (ztFull.map Prod.fst)[(ti + 1) - 1]?)) := by
        right
        refine ⟨by omega, ?_⟩
        simp [htlow]
      by_cases h : qc = tc
      · subst h
        simp only [fuzzyGo] at hgo
        rw [if_pos trivial] at hgo
        obtain ⟨newPs, hP, hs⟩ := ih zq2 (ti + 1) (ti : Int) (some qc) _ (pos ++ [ti])
          s P hidx2 hprev2 hgo
        refine ⟨ti :: newPs, by simp [hP], ?_⟩
        have hword : (ti = 0 ∨ (∃ c, prev = some c ∧ (c = ' ' ∨ c = '-' ∨ c = '_')))
            ↔ wordStart (ztFull.map Prod.fst) ti = true := by
          rcases hprev with ⟨h0, hpn⟩ | ⟨h0, hpe⟩
          · subst h0
            simp [hpn, wordStart]
          · rcases hc : (ztFull.map Prod.fst)[ti - 1]? with _ | c
            · rw [hc] at hpe
              simp [wordStart, h0, hc, hpe]
            · rw [hc] at hpe
              simp [wordStart, h0, hc, hpe, sepChar, Bool.or_eq_true, decide_eq_true_eq,
                or_assoc]
        have hexact : (qo = tOrig) ↔ ((ztFull.map Prod.snd)[ti]? = some qo) := by
          rw [htorig]
          constructor
          · intro hh
            rw [hh]
          · intro hh
            injection hh with hh
            exact hh.symm
        rw [hs]
        simp only [List.map_cons, List.zip, List.zipWith_cons_cons, amendScoreAux]
        rw [if_congr hword.symm rfl rfl, if_congr hexact.symm rfl rfl]
        split_ifs <;> omega
      · simp only [fuzzyGo, if_neg h] at hgo
        exact ih (⟨qc, qo⟩ :: zq2) (ti + 1) lm (some tc) sc pos s P hidx2 hprev2 hgo


/-- C5 (amended): the fuzzy matcher matches iff every query character
appears in the text in order case-insensitively, returning the matched
positions; the score follows the claimed bonuses with the amendment
that the previous-match index starts at −1, so a first match at text
position 0 also receives the +2 consecutive bonus; fuzzyMatch("hlo",
"hello") yields positions [0,2,4] and fuzzyMatch("xyz","hello") none. -/
theorem c5_fuzzy_scoring :
    (∀ q t : String, (fuzzyMatcher q t).isSome = true ↔
        List.Sublist (lowerStr q).data (lowerStr t).data)
    ∧ (∀ (q t : String) (r : MatchResult), fuzzyMatcher q t = some r →
        ∃ ps, r.positions = some ps ∧ r.score = (amendScore q t ps : Int))
    ∧ fuzzyMatcher "hlo" "hello" = some ⟨14, some [0, 2, 4]⟩
    ∧ fuzzyMatcher "xyz" "hello" = none := by
  refine ⟨?_, ?_, by decide, by decide⟩
  · intro q t
    have hiff := fuzzyGo_isSome_iff (zipLower t) (zipLower q) 0 (-1) none 0 []
    rw [zipLower_fst, zipLower_fst] at hiff
    rcases hgo : fuzzyGo (zipLower q) (zipLower t) 0 (-1) none 0 [] with _ | p2
    · rw [hgo] at hiff
      simp only [Option.isSome_none] at hiff
      simp [fuzzyMatcher, hgo]
      exact fun hsub => by
        have := hiff.mpr hsub
        simp at this
    · rw [hgo] at hiff
      simp only [Option.isSome_some] at hiff
      obtain ⟨sc, ps⟩ := p2
      simp [fuzzyMatcher, hgo]
      exact hiff.mp trivial
  · intro q t r hr
    rcases hgo : fuzzyGo (zipLower q) (zipLower t) 0 (-1) none 0 [] with _ | p2
    · simp [fuzzyMatcher, hgo] at hr
    · obtain ⟨sc, ps⟩ := p2
      obtain ⟨newPs, hP, hs⟩ := fuzzyGo_score (zipLower t) (zipLower t) (zipLower q) 0
        (-1) none 0 [] sc ps (by intro j; simp) (Or.inl ⟨rfl, rfl⟩) hgo
      simp only [List.nil_append] at hP
      subst hP
      rw [zipLower_fst, zipLower_snd, zipLower_snd] at hs
      simp only [fuzzyMatcher, hgo] at hr
      injection hr with hr
      refine ⟨ps, ?_, ?_⟩
      · rw [← hr]
      · rw [← hr]
        simp only [amendScore]
        rw [hs]
        simp
  
/-- Witness for C5 at ("hlo", "hello"). -/
theorem c5_fuzzy_scoring_witness :
    ∃ ps, (some [0, 2, 4] : Option (List Nat)) = some ps ∧
      (14 : Int) = (amendScore "hlo" "hello" ps : Int) := by
  have h := c5_fuzzy_scoring.2.1 "hlo" "hello" ⟨14, some [0, 2, 4]⟩ (by decide)
  simpa using h

/-- C5 counterexample: the matcher's score on ("hlo", "hello") is 14
(the code gives the +2 consecutive bonus to the first match at position
0), while the scoring rule exactly as claimed yields 12. -/
theorem c5_fuzzy_scoring_counterexample :
    fuzzyMatcher "hlo" "hello" = some ⟨14, some [0, 2, 4]⟩
    ∧ (claimScore "hlo" "hello" [0, 2, 4] : Int) = 12
    ∧ ¬ ((14 : Int) = (claimScore "hlo" "hello" [0, 2, 4] : Int)) := by
  exact ⟨by decide, by decide, by decide⟩


/-! ### Search ranking lemmas -/

lemma sortLE_trans {Ctx : Type} (a b c : ScoredCommand Ctx) :
    sortLE a b → sortLE b c → sortLE a c := by
  simp only [sortLE]
  cases ha : a.active <;> cases hb : b.active <;> cases hc : c.active <;>
    simp_all <;> omega

lemma sortLE_total {Ctx : Type} (a b : ScoredCommand Ctx) :
    (sortLE a b || sortLE b a) = true := by
  simp only [sortLE]
  cases ha : a.active <;> cases hb : b.active <;> simp_all <;> omega

lemma mapSet_find {Ctx : Type} (k k2 : String) (v : Command Ctx) :
    ∀ m : List (String × Command Ctx),
      (mapSet m k v).find? (fun e => e.1 = k2) =
        if k = k2 then some (k, v) else m.find? (fun e => e.1 = k2) := by
  intro m
  induction m with
  | nil =>
    by_cases h : k = k2 <;> simp [mapSet, List.find?_cons, h]
  | cons e rest ih =>
    obtain ⟨k3, v3⟩ := e
    by_cases h3 : k3 = k
    · subst h3
      by_cases h : k3 = k2
      · subst h
        simp [mapSet, List.find?_cons]
      · simp [mapSet, List.find?_cons, h]
    · by_cases h : k3 = k2
      · subst h
        have hk : ¬ (k = k3) := fun hh => h3 hh.symm
        simp [mapSet, h3, List.find?_cons, hk]
      · simp [mapSet, h3, List.find?_cons, h, ih]

lemma foldl_mapSet_find {Ctx : Type} :
    ∀ (cmds : List (Command Ctx)) (acc : List (String × Command Ctx)) (k : String),
      ((cmds.foldl (fun seen cmd => mapSet seen cmd.id cmd) acc).find?
          (fun e => e.1 = k)) =
        match cmds.reverse.find? (fun c => c.id = k) with
        | some c => some (k, c)
        | none => acc.find? (fun e => e.1 = k) := by
  intro cmds
  induction cmds with
  | nil =>
    intro acc k
    simp
  | cons cmd rest ih =>
    intro acc k
    simp only [List.foldl_cons, List.reverse_cons, List.find?_append]
    rw [ih]
    rcases hr : rest.reverse.find? (fun c => c.id = k) with _ | c
    · by_cases h : cmd.id = k
      · simp [hr, mapSet_find, h]
      · simp [hr, mapSet_find, h]
    · simp [hr]

lemma mapSet_mem {Ctx : Type} (k : String) (v : Command Ctx) :
    ∀ (m : List (String × Command Ctx)) (e : String × Command Ctx),
      e ∈ mapSet m k v → e ∈ m ∨ e = (k, v) := by
  intro m
  induction m with
  | nil =>
    intro e he
    simp only [mapSet, List.mem_singleton] at he
    right
    exact he
  | cons e2 rest ih =>
    obtain ⟨k3, v3⟩ := e2
    intro e he
    by_cases h3 : k3 = k
    · simp only [mapSet, if_pos h3] at he
      rcases List.mem_cons.mp he with he2 | he2
      · right
        rw [he2, h3]
      · left
        exact List.mem_cons_of_mem _ he2
    · simp only [mapSet, if_neg h3] at he
      rcases List.mem_cons.mp he with he2 | he2
      · left
        rw [he2]
        exact List.mem_cons_self _ _
      · rcases ih e he2 with h | h
        · left
          exact List.mem_cons_of_mem _ h
        · right
          exact h

lemma foldl_mapSet_ids {Ctx : Type} :
    ∀ (cmds : List (Command Ctx)) (acc : List (String × Command Ctx)),
      (∀ e ∈ acc, (e : String × Command Ctx).2.id = e.1) →
      ∀ e ∈ cmds.foldl (fun seen cmd => mapSet seen cmd.id cmd) acc, e.2.id = e.1 := by
  intro cmds
  induction cmds with
  | nil => exact fun acc h => h
  | cons cmd rest ih =>
    intro acc hacc
    simp only [List.foldl_cons]
    refine ih _ ?_
    intro e he
    rcases mapSet_mem cmd.id cmd _ e he with h | h
    · exact hacc e h
    · rw [h]

lemma mapSet_keys {Ctx : Type} (k : String) (v : Command Ctx) :
    ∀ m : List (String × Command Ctx),
      (mapSet m k v).map (fun e => e.1) =
        if k ∈ m.map (fun e => e.1) then m.map (fun e => e.1)
        else m.map (fun e => e.1) ++ [k] := by
  intro m
  induction m with
  | nil => simp [mapSet]
  | cons e rest ih =>
    obtain ⟨k3, v3⟩ := e
    by_cases h3 : k3 = k
    · subst h3
      simp [mapSet]
    · have hne : ¬ (k = k3) := fun hh => h3 hh.symm
      simp only [mapSet, if_neg h3, List.map_cons, List.mem_cons, hne, false_or, ih]
      by_cases hk : k ∈ rest.map (fun e => e.1) <;> simp [hk]

lemma foldl_mapSet_keys_nodup {Ctx : Type} :
    ∀ (cmds : List (Command Ctx)) (acc : List (String × Command Ctx)),
      (acc.map (fun e => e.1)).Nodup →
      ((cmds.foldl (fun seen cmd => mapSet seen cmd.id cmd) acc).map
          (fun e => e.1)).Nodup := by
  intro cmds
  induction cmds with
  | nil => exact fun acc h => h
  | cons cmd rest ih =>
    intro acc hacc
    simp only [List.foldl_cons]
    refine ih _ ?_
    rw [mapSet_keys]
    by_cases hk : cmd.id ∈ acc.map (fun e => e.1)
    · simp [hk, hacc]
    · simp only [hk, if_false]
      rw [List.nodup_append]
      refine ⟨hacc, List.nodup_singleton _, ?_⟩
      intro a ha hcmd
      rw [List.mem_singleton] at hcmd
      rw [hcmd] at ha
      exact hk ha

lemma nodup_keys_find {Ctx : Type} :
    ∀ (m : List (String × Command Ctx)) (e : String × Command Ctx),
      (m.map (fun e => e.1)).Nodup → e ∈ m →
      m.find? (fun x => x.1 = e.1) = some e := by
  intro m
  induction m with
  | nil => simp
  | cons e2 rest ih =>
    intro e hnd he
    simp only [List.map_cons, List.nodup_cons] at hnd
    rcases List.mem_cons.mp he with he2 | he2
    · rw [he2]
      simp [List.find?_cons]
    · have hne : ¬ (e2.1 = e.1) := by
        intro hh
        exact hnd.1 (hh ▸ (List.mem_map.mpr ⟨e, he2, rfl⟩))
      simp [List.find?_cons, hne, ih e hnd.2 he2]


lemma dedupe_last_wins {Ctx : Type} (cmds : List (Command Ctx)) (r : Command Ctx) :
    r ∈ dedupeCommands cmds → cmds.reverse.find? (fun c => c.id = r.id) = some r := by
  intro hr
  simp only [dedupeCommands, List.mem_map] at hr
  obtain ⟨e, he, hev⟩ := hr
  have hid : e.2.id = e.1 := foldl_mapSet_ids cmds [] (by simp) e he
  have hnd := foldl_mapSet_keys_nodup cmds [] (by simp)
  have hfind := nodup_keys_find _ e hnd he
  rw [foldl_mapSet_find] at hfind
  rcases hf : cmds.reverse.find? (fun c => c.id = e.1) with _ | c
  · rw [hf] at hfind
    simp at hfind
  · rw [hf] at hfind
    injection hfind with hfind
    have hc : c = e.2 := by
      rw [← hfind]
    rw [← hev, hid, hf, hc]

lemma dedupe_ids_nodup {Ctx : Type} (cmds : List (Command Ctx)) :
    ((dedupeCommands cmds).map (fun c => c.id)).Nodup := by
  have hnd := foldl_mapSet_keys_nodup cmds [] (by simp)
  have hids := foldl_mapSet_ids cmds [] (by simp)
  simp only [dedupeCommands, List.map_map]
  have heq : (cmds.foldl (fun seen cmd => mapSet seen cmd.id cmd) []).map
        ((fun c => Command.id c) ∘ (fun e => e.2)) =
      (cmds.foldl (fun seen cmd => mapSet seen cmd.id cmd) []).map (fun e => e.1) :=
    List.map_congr_left (fun e he => hids e he)
  rw [heq]
  exact hnd

lemma filterMap_map_sublist {α β γ : Type} (f : α → Option β) (g : α → γ) (h : β → γ)
    (hfg : ∀ a b, f a = some b → h b = g a) :
    ∀ l : List α, List.Sublist ((l.filterMap f).map h) (l.map g) := by
  intro l
  induction l with
  | nil => simp
  | cons x xs ih =>
    rcases hf : f x with _ | b
    · simp only [List.filterMap_cons, hf, List.map_cons]
      exact ih.cons _
    · simp only [List.filterMap_cons, hf, List.map_cons]
      rw [hfg x b hf]
      exact ih.cons₂ _

/-- C6: command search drops hidden commands, dedupes by id keeping the
last entry, scores each remaining command against the first matching
field, and returns a stable-sorted permutation with active commands
first and higher score first; exact ties keep candidate order; an array
with two commands sharing an id yields one result with the later
entry's fields. -/
theorem c6_search_ranking (Ctx : Type) (commands : List (Command Ctx)) (query : String)
    (context : Ctx) (matcher : Matcher) :
    List.Perm (matchCommands commands query context matcher)
      (searchCandidates commands query context matcher)
    ∧ List.Pairwise (fun a b => sortLE a b = true)
        (matchCommands commands query context matcher)
    ∧ (∀ a b : ScoredCommand Ctx, sortLE a b = true →
        List.Sublist [a, b] (searchCandidates commands query context matcher) →
        List.Sublist [a, b] (matchCommands commands query context matcher))
    ∧ (∀ r ∈ matchCommands commands query context matcher,
        r.cmd.hidden = false ∧ r.active = isActive r.cmd context
          ∧ (∃ m, scoreCommand matcher query r.cmd = some m ∧ r.score = m.score
              ∧ r.positions = m.positions)
          ∧ commands.reverse.find? (fun c => c.id = r.cmd.id) = some r.cmd)
    ∧ List.Nodup ((matchCommands commands query context matcher).map
        (fun r => r.cmd.id))
    ∧ (matchCommands [saveOld, saveNew] "sav" () fuzzyMatcher).map
        (fun r => (r.cmd.label, r.cmd.id, r.score)) = [("Save File", "save", (14 : Int))] := by
  have htrans : ∀ a b c : ScoredCommand Ctx, sortLE a b → sortLE b c → sortLE a c :=
    fun a b c => sortLE_trans a b c
  have htotal : ∀ a b : ScoredCommand Ctx, (sortLE a b || sortLE b a) = true :=
    fun a b => sortLE_total a b
  refine ⟨List.mergeSort_perm _ _, ?_, ?_, ?_, ?_, ?_⟩
  · have h := List.sorted_mergeSort htrans htotal
      (searchCandidates commands query context matcher)
    exact h.imp (fun hab => hab)
  · intro a b hab hsub
    exact List.sublist_mergeSort htrans htotal (by simp [hab]) hsub
  · intro r hr
    simp only [matchCommands, List.mem_mergeSort] at hr
    simp only [searchCandidates, List.mem_filterMap] at hr
    obtain ⟨cmd, hcmd, hsome⟩ := hr
    rcases hh : cmd.hidden with _ | _
    · rcases hsc : scoreCommand matcher query cmd with _ | m
      · simp [hh, hsc] at hsome
      · simp only [hh, hsc, Bool.false_eq_true, if_false] at hsome
        injection hsome with hsome
        subst hsome
        exact ⟨hh, rfl, ⟨m, hsc, rfl, rfl⟩, dedupe_last_wins commands cmd hcmd⟩
    · simp [hh] at hsome
  · have hcand : List.Sublist
        ((searchCandidates commands query context matcher).map (fun r => r.cmd.id))
        ((dedupeCommands commands).map (fun c => c.id)) := by
      apply filterMap_map_sublist
      intro cmd r hf
      rcases hh : cmd.hidden with _ | _
      · rcases hsc : scoreCommand matcher query cmd with _ | m
        · simp [hh, hsc] at hf
        · simp only [hh, hsc, Bool.false_eq_true, if_false] at hf
          injection hf with hf
          subst hf
          rfl
      · simp [hh] at hf
    have hnd := (dedupe_ids_nodup commands).sublist hcand
    have hperm : List.Perm
        ((matchCommands commands query context matcher).map (fun r => r.cmd.id))
        ((searchCandidates commands query context matcher).map (fun r => r.cmd.id)) :=
      (List.mergeSort_perm _ _).map _
    exact hnd.perm hperm.symm
  · have hx : searchCandidates [saveOld, saveNew] "sav" () fuzzyMatcher =
        [{ cmd := saveNew, active := true, score := 14, positions := some [0, 1, 2] }] :=
      rfl
    simp only [matchCommands, hx, List.mergeSort_singleton]
    rfl

/-- Witness for C6: a tie between two always-active commands with equal
scores keeps candidate (registration) order in the sorted output. -/
theorem c6_search_ranking_witness :
    List.Sublist
      [{ cmd := tieA, active := true, score := 11, positions := some [0] },
       { cmd := tieB, active := true, score := 11, positions := some [0] }]
      (matchCommands [tieA, tieB] "g" () fuzzyMatcher) := by
  have h := (c6_search_ranking Unit [tieA, tieB] "g" () fuzzyMatcher).2.2.1
    { cmd := tieA, active := true, score := 11, positions := some [0] }
    { cmd := tieB, active := true, score := 11, positions := some [0] }
    (by rfl) ?_
  · exact h
  · have he : searchCandidates [tieA, tieB] "g" () fuzzyMatcher =
        [{ cmd := tieA, active := true, score := 11, positions := some [0] },
         { cmd := tieB, active := true, score := 11, positions := some [0] }] := rfl
    rw [he]

end Keybinds
